import Mathlib

/-!
Shallow embedding of the FatesGS multi-view feature-loss module
(`utils/feat_utils.py`): the projective geometry utilities, grid
normalization and range masking, the occlusion-visibility resolution inside
`get_feat_loss_corr`, its masked-mean loss aggregation, the `UNet.forward`
output policy, the two-scale aggregator `get_feat_loss`, and the
`load_pair` pair-file reader.  Machine floats are modelled as exact
rationals; tensors produced by the external tensor engine (learned feature
maps, bilinear samples) enter as parameters.
-/

set_option autoImplicit false

universe u v

namespace FatesGS

/-- `bin_op_reduce`: left fold of `func` over a nonempty list; `none` models
the `IndexError` that `lst[0]` raises on an empty list. -/
def bin_op_reduce {α : Type u} (lst : List α) (func : α → α → α) : Option α :=
  match lst with
  | [] => none
  | x :: xs => some (xs.foldl func x)

/-- The literal `1e-9` guard added to every perspective-division denominator. -/
def eps : ℚ := 1 / 1000000000

/-- Product of a 4x4 matrix with a homogeneous 4-vector (the `@` on `..41`
tensors). -/
def mulVec4 (m : Fin 4 → Fin 4 → ℚ) (p : Fin 4 → ℚ) : Fin 4 → ℚ := fun i =>
  m i 0 * p 0 + m i 1 * p 1 + m i 2 * p 2 + m i 3 * p 3

/-- Product of a 3x3 matrix with a 3-vector (the `@` on `..31` tensors). -/
def mulVec3 (m : Fin 3 → Fin 3 → ℚ) (p : Fin 3 → ℚ) : Fin 3 → ℚ := fun i =>
  m i 0 * p 0 + m i 1 * p 1 + m i 2 * p 2

/-- One camera as packed by the callers: `cam[:,0]` is the 4x4 extrinsic
(world-to-view) matrix, `cam[:,1]` the 4x4 intrinsic matrix. -/
structure Cam where
  extr : Fin 4 → Fin 4 → ℚ
  intr : Fin 4 → Fin 4 → ℚ

/-- `idx_world2cam`: multiply the homogeneous world point by the extrinsic
matrix, then divide every component by the homogeneous w plus `1e-9`. -/
def idx_world2cam (p : Fin 4 → ℚ) (cam : Cam) : Fin 4 → ℚ :=
  let q := mulVec4 cam.extr p
  fun i => q i / (q 3 + eps)

/-- `idx_cam2img`: divide the first three rows by the homogeneous w plus
`1e-9`, multiply by the intrinsic's top-left 3x3 block, then divide by the
resulting image-homogeneous w plus `1e-9`. -/
def idx_cam2img (q : Fin 4 → ℚ) (cam : Cam) : Fin 3 → ℚ :=
  let c : Fin 3 → ℚ := fun i => q i.castSucc / (q 3 + eps)
  let r := mulVec3 (fun i j => cam.intr i.castSucc j.castSucc) c
  fun i => r i / (r 2 + eps)

/-- The 4x4 identity extrinsic used by the hand-computed camera. -/
def idMat4 : Fin 4 → Fin 4 → ℚ := fun i j => if i = j then 1 else 0

/-- A simple pinhole intrinsic with focal length `f` and principal point
`(cx, cy)`. -/
def pinholeIntr (f cx cy : ℚ) : Fin 4 → Fin 4 → ℚ := fun i j =>
  if i = 0 ∧ j = 0 then f
  else if i = 0 ∧ j = 2 then cx
  else if i = 1 ∧ j = 1 then f
  else if i = 1 ∧ j = 2 then cy
  else if (i = 2 ∧ j = 2) ∨ (i = 3 ∧ j = 3) then 1
  else 0

/-- The hand-computed camera: identity extrinsic, pinhole intrinsic. -/
def pinholeCam (f cx cy : ℚ) : Cam :=
  { extr := idMat4, intr := pinholeIntr f cx cy }

/-- A homogeneous world point `(x, y, z, 1)`. -/
def homoPoint (x y z : ℚ) : Fin 4 → ℚ := fun i =>
  if i = 0 then x else if i = 1 then y else if i = 2 then z else 1

/-- The accumulated epsilon guard that ends up added to the pinhole depth
denominator after the three guarded divisions: `eps * (1 + eps + eps^2)`. -/
def epsAcc : ℚ := eps * (1 + eps + eps ^ 2)

/-- `torch.clamp(x, lo, hi)`. -/
def clamp (x lo hi : ℚ) : ℚ := max lo (min x hi)

/-- `normalize_for_grid_sample` on one 2-D grid entry `(u, v)` for a feature
map of spatial size height `H`, width `W` (`input_.size()[2:]` flipped, so
`u` is divided by `W` and `v` by `H`): divide by the size, map `[0, size]`
to `[-1, 1]`, clamp into `[-1.1, 1.1]`. -/
def normalize_for_grid_sample (W H : ℚ) (g : ℚ × ℚ) : ℚ × ℚ :=
  (clamp (g.1 / W * 2 - 1) (-11 / 10) (11 / 10),
   clamp (g.2 / H * 2 - 1) (-11 / 10) (11 / 10))

/-- `get_in_range` on one normalized coordinate (its list of spatial
dimensions): the per-dimension tests `<= 1` and `>= -1` in source order,
reduced by `torch.min` (conjunction on booleans), then cast to the grid's
dtype (`1` or `0`). `none` models the empty-dimension `IndexError`. -/
def get_in_range (g : List ℚ) : Option ℚ :=
  (bin_op_reduce (g.flatMap fun gd => [decide (gd ≤ 1), decide (gd ≥ -1)])
      (fun a b => a && b)).map fun b => if b then (1 : ℚ) else 0

/-- Stable insertion step: place `x` before the first `y` with `le x y`. -/
def insertLe {α : Type u} (le : α → α → Bool) (x : α) : List α → List α
  | [] => [x]
  | y :: ys => if le x y then x :: y :: ys else y :: insertLe le x ys

/-- Stable insertion sort. -/
def isort {α : Type u} (le : α → α → Bool) : List α → List α
  | [] => []
  | x :: xs => insertLe le x (isort le xs)

/-- Ascending argsort of a distance vector (`torch.sort(dists[i])`), ties
broken by original position. -/
def argsort (dists : List ℚ) : List ℕ :=
  isort
    (fun i j =>
      decide (dists.getD i 0 < dists.getD j 0) ||
        (decide (dists.getD i 0 = dists.getD j 0) && decide (i ≤ j)))
    (List.range dists.length)

/-- The lexicographic row order in which `torch.unique(dim=0)` returns the
unique rows of an integer `[m, 2]` tensor. -/
def uvLe (a b : Int × Int) : Bool :=
  decide (a.1 < b.1) || (decide (a.1 = b.1) && decide (a.2 ≤ b.2))

/-- Run lengths of consecutive equal rows. -/
def countRunsAux (x : Int × Int) (n : ℕ) : List (Int × Int) → List ℕ
  | [] => [n]
  | y :: ys => if y = x then countRunsAux x (n + 1) ys else n :: countRunsAux y 1 ys

/-- Run lengths of consecutive equal rows of a list. -/
def countRuns : List (Int × Int) → List ℕ
  | [] => []
  | x :: xs => countRunsAux x 1 xs

/-- The `cnts` of `torch.unique(rows, return_counts=True, dim=0)`: the rows
are sorted lexicographically first (the CUDA implementation always sorts
when `dim` is given), so the counts come in lexicographic row order, not in
order of first appearance. -/
def uniqueCounts (rows : List (Int × Int)) : List ℕ :=
  countRuns (isort uvLe rows)

/-- The partial sums `[0, c1, c1+c2, ...]`: `cumsum` of `cat([0], cnts)`
with the final total dropped. -/
def cumIdx : List ℕ → ℕ → List ℕ
  | [], _ => []
  | c :: cs, acc => acc :: cumIdx cs (acc + c)

/-- A boolean mask of length `m` that is true exactly at the listed
positions (`sorted_vis_mask[unique_index] = 1`). -/
def markIndices (m : ℕ) (idxs : List ℕ) : List Bool :=
  (List.range m).map fun k => idxs.contains k

/-- The per-source-view visibility mask computed by `get_feat_loss_corr`
(lines 305-324): sort the points by distance to the source camera center,
take the `torch.unique(dim=0)` counts of the rounded pixel rows, mark the
positions `[0, c1, c1+c2, ...]` of the distance-sorted order as visible,
and un-sort back to original point order. -/
def visMask (uv : List (Int × Int)) (dists : List ℚ) : List Bool :=
  let m := dists.length
  let sortedIndices := argsort dists
  let sortedUV := sortedIndices.map fun i => uv.getD i (0, 0)
  let cnts := uniqueCounts sortedUV
  let uniqueIndex := cumIdx cnts 0
  let sortedVis := markIndices m uniqueIndex
  (List.range m).map fun j => sortedVis.getD (sortedIndices.indexOf j) false

/-- The visibility rule as the specification words it: a point is visible
iff it is the first point of its rounded-pixel group in the distance-sorted
order. -/
def visMaskSpecced (uv : List (Int × Int)) (dists : List ℚ) : List Bool :=
  let s := argsort dists
  (List.range dists.length).map fun j =>
    decide (s.find? (fun i => decide (uv.getD i (0, 0) = uv.getD j (0, 0))) = some j)

/-- A tensor used as an index into `pts_world`, tagged with its dtype. -/
inductive IndexTensor where
  | boolMask (ms : List Bool)
  | floatTensor (vals : List ℚ)

/-- Advanced indexing `pts[idx]`: a boolean mask of matching length selects
rows; a float index tensor raises `IndexError` in the tensor engine
("tensors used as indices must be long, byte or bool tensors"), modelled as
`none`. -/
def tensorIndex {α : Type u} (pts : List α) : IndexTensor → Option (List α)
  | .boolMask ms =>
    if ms.length = pts.length then
      some ((pts.zip ms).filterMap fun p => if p.2 then some p.1 else none)
    else none
  | .floatTensor _ => none

/-- `torch.ones_like(pts_world)[:, 0]`: a float tensor of ones, one entry
per point (it inherits the float dtype of `pts_world`). -/
def ones_like_col {α : Type u} (pts : List α) : List ℚ := pts.map fun _ => 1

/-- The `pts_mask` chosen by `get_feat_loss`: the caller's boolean mask when
`use_mask` is set, otherwise the float ones column. -/
def pts_mask_of {α : Type u} (use_mask : Bool) (mask : List Bool) (pts : List α) :
    IndexTensor :=
  if use_mask then .boolMask mask else .floatTensor (ones_like_col pts)

/-- The point selection `pts_world[pts_mask]` performed by `get_feat_loss`. -/
def get_feat_loss_pts {α : Type u} (use_mask : Bool) (mask : List Bool) (pts : List α) :
    Option (List α) :=
  tensorIndex pts (pts_mask_of use_mask mask pts)

/-- The scale loop of `get_feat_loss`: for `scale` in `[1, 2]`, with
sampling scale `scale` when `resolution == 2` and `2 * scale` otherwise,
accumulate `(1/scale) * loss(scale, grid_scale)` and the weight `1/scale`,
and return the weighted sum divided by the weight sum.  `lossAt` is the
correlation loss as a function of the feature scale and the sampling
scale. -/
def get_feat_loss (resolution : ℕ) (lossAt : ℕ → ℕ → ℚ) : ℚ :=
  let r := [1, 2].foldl
    (fun (acc : ℚ × ℚ) (scale : ℕ) =>
      let grid_scale := if resolution = 2 then scale else 2 * scale
      (acc.1 + 1 / (scale : ℚ) * lossAt scale grid_scale, acc.2 + 1 / (scale : ℚ)))
    (0, 0)
  r.1 / r.2

/-- The gathered data of one reference image inside `get_feat_loss_corr`:
per source view and per point, the cosine similarity `corr` of the
bilinearly gathered feature vectors (the gather and the normalized inner
product are performed by the external tensor engine on learned feature
maps, so the similarities enter as data), the in-range `valid_mask`, and
the occlusion `vis_masks`. -/
structure ImageData where
  corr : List (List ℚ)
  valid : List (List Bool)
  vis : List (List Bool)
deriving DecidableEq

/-- `corr_loss = (1 - corr).abs()`. -/
def corr_loss (c : ℚ) : ℚ := |1 - c|

/-- One entry of `corr_loss * valid_mask * diff_mask * vis_masks`, with
`diff_mask = corr_loss < 0.5` and the boolean masks cast to `0`/`1`. -/
def entryLoss (c : ℚ) (va vi : Bool) : ℚ :=
  corr_loss c * (if va then 1 else 0) * (if corr_loss c < 1 / 2 then 1 else 0) *
    (if vi then 1 else 0)

/-- Sum of the masked entries of one source-view row. -/
def rowLossSum (cs : List ℚ) (vals vis : List Bool) : ℚ :=
  ((cs.zip (vals.zip vis)).map fun p => entryLoss p.1 p.2.1 p.2.2).sum

/-- Sum of the masked entries over all source views of one image. -/
def imageLossSum (d : ImageData) : ℚ :=
  ((d.corr.zip (d.valid.zip d.vis)).map fun r => rowLossSum r.1 r.2.1 r.2.2).sum

/-- The total number of entries of the `[n_src, 1, m, 1]` tensor the
`.mean()` ranges over. -/
def imageNumel (d : ImageData) : ℕ := (d.corr.map List.length).sum

/-- `sample_loss = (corr_loss * valid_mask * diff_mask * vis_masks).mean()`:
the sum of the masked entries divided by the number of ALL entries. -/
def sample_loss (d : ImageData) : ℚ := imageLossSum d / (imageNumel d : ℚ)

/-- Number of `True` entries of one mask row (`hit_nums`). -/
def hitNum (row : List Bool) : ℕ := row.countP id

/-- `get_feat_loss_corr` with the per-image gathered data abstracted: return
`0` immediately when the mask has no true entry; otherwise every image whose
slice is nonempty contributes its `sample_loss`, an image with an empty
slice contributes `0`, and the result is the sum over images divided by the
number of images. -/
def get_feat_loss_corr (mask : List (List Bool)) (data : List ImageData) : ℚ :=
  if (mask.map hitNum).sum = 0 then 0
  else
    let losses := (mask.zip data).map fun p =>
      if 0 < hitNum p.1 then sample_loss p.2 else 0
    losses.sum / (losses.length : ℚ)

/-- Following the words of the specification (for comparison with
`sample_loss`): the per-point/view loss values of one row restricted to the
entries where the valid mask, the under-threshold mask, and the visibility
mask all hold. -/
def maskedRowVals (cs : List ℚ) (vals vis : List Bool) : List ℚ :=
  (cs.zip (vals.zip vis)).filterMap fun p =>
    if p.2.1 ∧ corr_loss p.1 < 1 / 2 ∧ p.2.2 then some (corr_loss p.1) else none

/-- All per-point/view loss values of one image where the three masks hold. -/
def maskedVals (d : ImageData) : List ℚ :=
  ((d.corr.zip (d.valid.zip d.vis)).map fun r => maskedRowVals r.1 r.2.1 r.2.2).flatten

/-- Following the words of the specification (for comparison with
`sample_loss`): the mean taken over exactly the entries where the three
masks hold, those entries alone forming the denominator. -/
def sample_loss_specced (d : ImageData) : ℚ :=
  (maskedVals d).sum / ((maskedVals d).length : ℚ)

/-- `l[-n:]` in Python: the last `n` entries; the whole list when `n = 0`
or `n ≥ l.length`. -/
def pythonTail {α : Type u} (n : ℕ) (l : List α) : List α :=
  if n = 0 then l else l.drop (l.length - n)

/-- One decoder stage of `UNet`: the transposed convolution, the
post-concatenation fusion convolution, and the optional residual
refinement (`len(b) == 3` versus `len(b) == 2`). -/
structure DecBlock (α : Type u) where
  deconv : α → α
  post_concat : α → α
  res : Option (α → α)

/-- Run one decoder stage: deconvolve, channel-concatenate with the skip
output, fuse, optionally refine. -/
def decApply {α : Type u} (cat : α → α → α) (b : DecBlock α) (x sk : α) : α :=
  let x1 := b.deconv x
  let x2 := cat x1 sk
  let x3 := b.post_concat x2
  match b.res with
  | some r => r x3
  | none => x3

/-- Run a list of stages from `x`, recording every stage output in order;
returns the final value and the list of recorded outputs. -/
def runStages {α : Type u} {β : Type v} (app : β → α → α) (l : List β) (x : α) :
    α × List α :=
  l.foldl (fun acc b => ((app b acc.1), acc.2 ++ [app b acc.1])) (x, [])

/-- Output of the bottom path. -/
def unetBottomOut {α : Type u} (bottom : List (α → α)) (x0 : α) : α :=
  bottom.foldl (fun x b => b x) x0

/-- The recorded encoder stage outputs (`enc_out`). -/
def unetEncOuts {α : Type u} (bottom encB : List (α → α)) (x0 : α) : List α :=
  (runStages (fun b x => b x) encB (unetBottomOut bottom x0)).2

/-- The running value after the encoder loop. -/
def unetEncFinal {α : Type u} (bottom encB : List (α → α)) (x0 : α) : α :=
  (runStages (fun b x => b x) encB (unetBottomOut bottom x0)).1

/-- The decoder loop: stage `i` consumes the skip output `enc_out[-2-i]`. -/
def unetDecRun {α : Type u} (cat : α → α → α) (bottom encB : List (α → α))
    (decB : List (DecBlock α)) (x0 : α) : α × List α :=
  let encOuts := unetEncOuts bottom encB x0
  runStages
    (fun (ib : ℕ × DecBlock α) x =>
      decApply cat ib.2 x (encOuts.getD (encOuts.length - 2 - ib.1) x0))
    decB.enum (unetEncFinal bottom encB x0)

/-- The decoder stage outputs appended to `dec_out` by the decoder loop. -/
def unetDecOuts {α : Type u} (cat : α → α → α) (bottom encB : List (α → α))
    (decB : List (DecBlock α)) (x0 : α) : List α :=
  (unetDecRun cat bottom encB decB x0).2

/-- The head loop, continuing from the decoder's final value. -/
def unetHeadRun {α : Type u} (cat : α → α → α) (bottom encB : List (α → α))
    (decB : List (DecBlock α)) (headB : List (α → α)) (x0 : α) : α × List α :=
  runStages (fun b x => b x) headB (unetDecRun cat bottom encB decB x0).1

/-- The head stage outputs appended to `dec_out` by the head loop. -/
def unetHeadOuts {α : Type u} (cat : α → α → α) (bottom encB : List (α → α))
    (decB : List (DecBlock α)) (headB : List (α → α)) (x0 : α) : List α :=
  (unetHeadRun cat bottom encB decB headB x0).2

/-- The running value after the head loop. -/
def unetHeadFinal {α : Type u} (cat : α → α → α) (bottom encB : List (α → α))
    (decB : List (DecBlock α)) (headB : List (α → α)) (x0 : α) : α :=
  (unetHeadRun cat bottom encB decB headB x0).1

/-- `UNet.forward`: run the bottom, encoder, decoder and head loops; the
list `dec_out` is seeded with the value after the encoder loop and then
collects the decoder and head stage outputs.  If `multi_scale == 1` return
only the final value, otherwise return `dec_out[-multi_scale:]`. -/
def UNet.forward {α : Type u} (cat : α → α → α) (bottom encB : List (α → α))
    (decB : List (DecBlock α)) (headB : List (α → α)) (x0 : α)
    (multi_scale : ℕ) : α ⊕ List α :=
  if multi_scale = 1 then Sum.inl (unetHeadFinal cat bottom encB decB headB x0)
  else
    Sum.inr (pythonTail multi_scale
      (unetEncFinal bottom encB x0 ::
        (unetDecOuts cat bottom encB decB x0 ++
          unetHeadOuts cat bottom encB decB headB x0)))

/-- One per-camera record built by `load_pair`. -/
structure PairEntry where
  id : String
  index : ℕ
  pair : List String
  score : List ℚ
deriving DecidableEq

/-- A value of the `pairs` dictionary: a per-camera record or the final
`id_list`. -/
inductive PairVal where
  | entry (e : PairEntry)
  | idList (ids : List String)
deriving DecidableEq

/-- The keys of the dictionary model. -/
def dictKeys (d : List (String × PairVal)) : List String := d.map Prod.fst

/-- Python dict assignment `d[k] = v`: replace in place when the key is
present, append otherwise. -/
def dictInsert (d : List (String × PairVal)) (k : String) (v : PairVal) :
    List (String × PairVal) :=
  if d.any fun p => decide (p.1 = k) then
    d.map fun p => if p.1 = k then (k, v) else p
  else d ++ [(k, v)]

/-- `if min_views is not None and n_pair < min_views: continue` — a camera
is kept iff no threshold is given or its neighbor count reaches it. -/
def keep (min_views : Option ℕ) (n_pair : ℕ) : Bool :=
  match min_views with
  | none => true
  | some m => !decide (n_pair < m)

/-- The camera loop of `load_pair` over the parsed per-camera lines (image
id and neighbor `(id, score)` list, in file order): the line counter `i`
runs over `1, 3, 5, ...` so camera `k` reads lines `i = 1 + 2*k` and
records `index = i // 2`; skipped cameras still advance the counter. -/
def load_pair_go (mv : Option ℕ) :
    List (String × List (String × ℚ)) → ℕ → List (String × PairVal) →
      List String → List (String × PairVal) × List String
  | [], _, pairs, ids => (pairs, ids)
  | c :: rest, k, pairs, ids =>
    if keep mv c.2.length then
      load_pair_go mv rest (k + 1)
        (dictInsert pairs c.1
          (.entry ⟨c.1, (1 + 2 * k) / 2, c.2.map Prod.fst, c.2.map Prod.snd⟩))
        (ids ++ [c.1])
    else load_pair_go mv rest (k + 1) pairs ids

/-- `load_pair` on a parsed pair file: run the camera loop, then store the
kept ids under the extra key `'id_list'`. -/
def load_pair (cams : List (String × List (String × ℚ))) (mv : Option ℕ) :
    List (String × PairVal) :=
  let r := load_pair_go mv cams 0 [] []
  dictInsert r.1 "id_list" (.idList r.2)

/-- The kept cameras with their original zero-based positions, as
association-list entries (what the claim says `load_pair` produces). -/
def keptWithIndex (cams : List (String × List (String × ℚ))) (mv : Option ℕ) :
    List (String × PairVal) :=
  (cams.enum.filter fun p => keep mv p.2.2.length).map fun p =>
    (p.2.1, .entry ⟨p.2.1, p.1, p.2.2.map Prod.fst, p.2.2.map Prod.snd⟩)

/-- The ids of the kept cameras, in file order. -/
def keptIds (cams : List (String × List (String × ℚ))) (mv : Option ℕ) :
    List String :=
  (cams.filter fun c => keep mv c.2.length).map Prod.fst

/-- `keptWithIndex` with the position counter started at `k` (the loop
invariant of `load_pair_go`). -/
def keptWithIndexFrom (k : ℕ) (cams : List (String × List (String × ℚ)))
    (mv : Option ℕ) : List (String × PairVal) :=
  ((cams.enumFrom k).filter fun p => keep mv p.2.2.length).map fun p =>
    (p.2.1, .entry ⟨p.2.1, p.1, p.2.2.map Prod.fst, p.2.2.map Prod.snd⟩)

/-- Concrete gathered data of one reference image with one source view and
two points: similarities `3/4` and `1`, the second point out of range. -/
def exImage : ImageData :=
  { corr := [[3 / 4, 1]], valid := [[true, false]], vis := [[true, true]] }

theorem foldl_and_eq_true (l : List Bool) :
    ∀ b : Bool, (l.foldl (fun a c => a && c) b = true) ↔
      (b = true ∧ ∀ x ∈ l, x = true) := by
  induction l with
  | nil => intro b; simp
  | cons y ys ih =>
    intro b
    simp only [List.foldl_cons, ih (b && y), Bool.and_eq_true, List.mem_cons]
    constructor
    · rintro ⟨⟨hb, hy⟩, h⟩
      exact ⟨hb, fun x hx => hx.elim (fun e => e ▸ hy) (h x)⟩
    · rintro ⟨hb, h⟩
      exact ⟨⟨hb, h y (Or.inl rfl)⟩, fun x hx => h x (Or.inr hx)⟩

theorem forall_flatMap_range_tests (xs : List ℚ) :
    (∀ b ∈ xs.flatMap fun gd => [decide (gd ≤ 1), decide (gd ≥ -1)], b = true) ↔
      ∀ z ∈ xs, -1 ≤ z ∧ z ≤ 1 := by
  simp only [List.mem_flatMap, List.mem_cons, List.not_mem_nil, or_false]
  constructor
  · intro h z hz
    have h1 := h (decide (z ≤ 1)) ⟨z, hz, Or.inl rfl⟩
    have h2 := h (decide (z ≥ -1)) ⟨z, hz, Or.inr rfl⟩
    exact ⟨by simpa using h2, by simpa using h1⟩
  · rintro h b ⟨z, hz, hb | hb⟩ <;> subst hb <;> simp [h z hz]

/-- C8 (amended): the in-range mask is `1` exactly when every spatial
dimension of the (nonempty) normalized coordinate lies within `[-1, 1]`,
computed as the min-conjunction of the per-dimension boundary tests; for
every feature map size the pixel-space grid value `(0, 0)` is in range
after normalization; and the normalized grid value `(2, 2)` — the input
`get_in_range` actually receives — is out of range. -/
theorem get_in_range_unit_box :
    (∀ g : List ℚ, g ≠ [] →
        (get_in_range g = some 1 ↔ ∀ x ∈ g, -1 ≤ x ∧ x ≤ 1)) ∧
      (∀ W H : ℚ,
        get_in_range [(normalize_for_grid_sample W H (0, 0)).1,
            (normalize_for_grid_sample W H (0, 0)).2] = some 1) ∧
      get_in_range [2, 2] = some 0 := by
  refine ⟨?_, ?_, by decide⟩
  · intro g hg
    obtain ⟨x, xs, rfl⟩ := List.exists_cons_of_ne_nil hg
    simp only [get_in_range, List.flatMap_cons, List.cons_append, List.nil_append,
      bin_op_reduce, Option.map_some']
    constructor
    · intro h
      have hb : (decide (x ≥ -1) :: xs.flatMap fun gd =>
          [decide (gd ≤ 1), decide (gd ≥ -1)]).foldl (fun a c => a && c)
            (decide (x ≤ 1)) = true := by
        by_contra hcon
        rw [Bool.not_eq_true] at hcon
        rw [hcon] at h
        simp at h
      rw [foldl_and_eq_true, List.forall_mem_cons] at hb
      obtain ⟨h1, h2, h3⟩ := hb
      rw [forall_flatMap_range_tests] at h3
      intro z hz
      rcases List.mem_cons.mp hz with rfl | hz
      · exact ⟨by simpa using h2, by simpa using h1⟩
      · exact h3 z hz
    · intro h
      have hb : (decide (x ≥ -1) :: xs.flatMap fun gd =>
          [decide (gd ≤ 1), decide (gd ≥ -1)]).foldl (fun a c => a && c)
            (decide (x ≤ 1)) = true := by
        rw [foldl_and_eq_true, List.forall_mem_cons, forall_flatMap_range_tests]
        obtain ⟨hx1, hx2⟩ := h x (List.mem_cons_self x xs)
        exact ⟨by simpa using hx2, by simpa using hx1,
          fun z hz => h z (List.mem_cons_of_mem x hz)⟩
      rw [hb]
      simp
  · intro W H
    have hn : normalize_for_grid_sample W H (0, 0) = (-1, -1) := by
      simp only [normalize_for_grid_sample, clamp]
      norm_num
    rw [hn]
    decide

/-- C8 (counterexample): on a 4x4 feature map the pixel-space grid value
`(2, 2)` normalizes to `(0, 0)` and IS in range, so the claim's
"out of range for any feature map size" fails. -/
theorem get_in_range_pixel_two_two_in_range :
    get_in_range [(normalize_for_grid_sample 4 4 (2, 2)).1,
        (normalize_for_grid_sample 4 4 (2, 2)).2] = some 1 := by
  have hn : normalize_for_grid_sample 4 4 (2, 2) = (0, 0) := by
    simp only [normalize_for_grid_sample, clamp]
    norm_num
  rw [hn]
  decide

theorem get_in_range_unit_box_witness :
    ([(0 : ℚ), 1 / 2] ≠ ([] : List ℚ)) ∧
      (get_in_range [(0 : ℚ), 1 / 2] = some 1 ↔
        ∀ x ∈ [(0 : ℚ), 1 / 2], -1 ≤ x ∧ x ≤ 1) :=
  ⟨by decide, get_in_range_unit_box.1 [0, 1 / 2] (by decide)⟩

/-- C1 (code bug): with points 0 and 2 rounding to pixel `(0, 0)` and point
1 rounding to pixel `(1, 1)`, at distances `1 < 2 < 3`, the z-buffer rule
of the specification marks `[visible, visible, hidden]`, but the code marks
`[visible, hidden, visible]`: `torch.unique(dim=0)` returns the group
counts in lexicographic pixel order, while the cumulative-sum indexing
assumes they come in order of first appearance along the distance-sorted
points. -/
theorem visMask_diverges_from_nearest_point_rule :
    visMask [(0, 0), (1, 1), (0, 0)] [1, 2, 3] = [true, false, true] ∧
      visMaskSpecced [(0, 0), (1, 1), (0, 0)] [1, 2, 3] = [true, true, false] :=
  ⟨by decide, by decide⟩

/-- C4 (code bug): with `use_mask` unset, `get_feat_loss` builds
`pts_mask = torch.ones_like(pts_world)[:, 0]`, a float tensor, and
`pts_world[pts_mask]` then raises `IndexError` (`none`); a caller-supplied
boolean mask marking every point visible selects all points instead. -/
theorem get_feat_loss_use_mask_unset_errors (pts : List (ℚ × ℚ × ℚ))
    (mask : List Bool) :
    get_feat_loss_pts false mask pts = none ∧
      get_feat_loss_pts true (pts.map fun _ => true) pts = some pts := by
  have key : ∀ l : List (ℚ × ℚ × ℚ),
      ((l.zip (List.replicate l.length true)).filterMap
        fun p => if p.2 then some p.1 else none) = l := by
    intro l
    induction l with
    | nil => rfl
    | cons a t ih => simp [List.replicate_succ, ih]
  exact ⟨rfl, by simp [get_feat_loss_pts, pts_mask_of, tensorIndex, key]⟩

/-- C6: when the visibility mask is all-false — and, more generally,
whenever its total hit count is zero — `get_feat_loss_corr` returns
exactly 0 through its early-return branch. -/
theorem get_feat_loss_corr_all_false_mask (mask : List (List Bool))
    (data : List ImageData) (h : ∀ row ∈ mask, ∀ b ∈ row, b = false) :
    get_feat_loss_corr mask data = 0 := by
  have hz : (mask.map hitNum).sum = 0 := by
    rw [List.sum_eq_zero]
    intro n hn
    obtain ⟨row, hrow, rfl⟩ := List.mem_map.mp hn
    exact List.countP_eq_zero.mpr fun b hb => by simp [h row hrow b hb]
  simp [get_feat_loss_corr, hz]

theorem get_feat_loss_corr_all_false_mask_witness :
    (∀ row ∈ [[false, false], [false]], ∀ b ∈ row, b = false) ∧
      get_feat_loss_corr [[false, false], [false]] [] = 0 :=
  ⟨by decide, get_feat_loss_corr_all_false_mask _ [] (by decide)⟩

/-- C7: `get_feat_loss` runs the correlation loss at feature scales 1 and 2
(sampling scale adjusted by the resolution factor), weights each result by
`1/scale`, divides the weighted sum by the weight sum, and therefore
returns exactly the common value whenever the two per-scale losses agree. -/
theorem get_feat_loss_weighted_two_scales (resolution : ℕ) (lossAt : ℕ → ℕ → ℚ) :
    get_feat_loss resolution lossAt =
        (1 / 1 * lossAt 1 (if resolution = 2 then 1 else 2) +
          1 / 2 * lossAt 2 (if resolution = 2 then 2 else 4)) / (1 / 1 + 1 / 2) ∧
      (lossAt 1 (if resolution = 2 then 1 else 2) =
          lossAt 2 (if resolution = 2 then 2 else 4) →
        get_feat_loss resolution lossAt =
          lossAt 1 (if resolution = 2 then 1 else 2)) := by
  have hg : get_feat_loss resolution lossAt =
      (1 / 1 * lossAt 1 (if resolution = 2 then 1 else 2) +
        1 / 2 * lossAt 2 (if resolution = 2 then 2 else 4)) / (1 / 1 + 1 / 2) := by
    simp only [get_feat_loss, List.foldl_cons, List.foldl_nil]
    norm_num
  refine ⟨hg, fun h => ?_⟩
  rw [hg, ← h]
  have hfac : (1 / 1 * lossAt 1 (if resolution = 2 then 1 else 2) +
      1 / 2 * lossAt 1 (if resolution = 2 then 1 else 2)) =
        lossAt 1 (if resolution = 2 then 1 else 2) * (1 / 1 + 1 / 2) := by
    ring
  rw [hfac, mul_div_assoc, div_self (by norm_num), mul_one]

theorem get_feat_loss_weighted_two_scales_witness :
    get_feat_loss 2 (fun _ _ => (7 : ℚ)) = 7 :=
  (get_feat_loss_weighted_two_scales 2 (fun _ _ => 7)).2 rfl

theorem entryLoss_nonneg (c : ℚ) (va vi : Bool) : 0 ≤ entryLoss c va vi := by
  have h0 : ∀ b : Bool, (0 : ℚ) ≤ if b then 1 else 0 := by
    intro b; cases b <;> norm_num
  have h1 : (0 : ℚ) ≤ if corr_loss c < 1 / 2 then 1 else 0 := by
    split <;> norm_num
  exact mul_nonneg (mul_nonneg (mul_nonneg (abs_nonneg _) (h0 va)) h1) (h0 vi)

theorem entryLoss_le_half (c : ℚ) (va vi : Bool) : entryLoss c va vi ≤ 1 / 2 := by
  by_cases hthr : corr_loss c < 1 / 2
  · have hnn : 0 ≤ corr_loss c := abs_nonneg _
    unfold entryLoss
    rw [if_pos hthr]
    cases va <;> cases vi
    all_goals simp
    all_goals linarith
  · unfold entryLoss
    rw [if_neg hthr]
    simp

theorem entryLoss_gt_half_zero (c : ℚ) (va vi : Bool) (h : 1 / 2 < corr_loss c) :
    entryLoss c va vi = 0 := by
  have hn : ¬corr_loss c < 1 / 2 := not_lt.mpr h.le
  unfold entryLoss
  rw [if_neg hn]
  ring

theorem entryLoss_eq_masked (c : ℚ) (va vi : Bool) :
    entryLoss c va vi =
      if va = true ∧ corr_loss c < 1 / 2 ∧ vi = true then corr_loss c else 0 := by
  cases va <;> cases vi <;> by_cases h : corr_loss c < 1 / 2 <;>
    simp [entryLoss, h]

theorem rowLossSum_nonneg (cs : List ℚ) (vals vis : List Bool) :
    0 ≤ rowLossSum cs vals vis := by
  apply List.sum_nonneg
  intro x hx
  obtain ⟨p, _, rfl⟩ := List.mem_map.mp hx
  exact entryLoss_nonneg p.1 p.2.1 p.2.2

theorem rowLossSum_le_half_len (cs : List ℚ) (vals vis : List Bool) :
    rowLossSum cs vals vis ≤ (cs.length : ℚ) * (1 / 2) := by
  have hlen : ((cs.zip (vals.zip vis)).map fun p => entryLoss p.1 p.2.1 p.2.2).length
      ≤ cs.length := by
    rw [List.length_map, List.length_zip]
    exact min_le_left _ _
  calc rowLossSum cs vals vis
      ≤ (((cs.zip (vals.zip vis)).map fun p => entryLoss p.1 p.2.1 p.2.2).length : ℕ)
          • (1 / 2 : ℚ) := by
        exact List.sum_le_card_nsmul _ _ (by
          intro x hx
          obtain ⟨p, _, rfl⟩ := List.mem_map.mp hx
          exact entryLoss_le_half p.1 p.2.1 p.2.2)
    _ = (((cs.zip (vals.zip vis)).map fun p => entryLoss p.1 p.2.1 p.2.2).length : ℚ)
          * (1 / 2) := by rw [nsmul_eq_mul]
    _ ≤ (cs.length : ℚ) * (1 / 2) := by
        apply mul_le_mul_of_nonneg_right _ (by norm_num)
        exact_mod_cast hlen

theorem sum_rowLossSum_le (cr : List (List ℚ)) (w : List (List Bool × List Bool)) :
    ((cr.zip w).map fun r => rowLossSum r.1 r.2.1 r.2.2).sum ≤
      ((cr.map List.length).sum : ℚ) * (1 / 2) := by
  induction cr generalizing w with
  | nil => simp
  | cons c ct ih =>
    cases w with
    | nil =>
      simp only [List.zip_nil_right, List.map_nil, List.sum_nil]
      positivity
    | cons p pt =>
      simp only [List.zip_cons_cons, List.map_cons, List.sum_cons]
      have h1 := rowLossSum_le_half_len c p.1 p.2
      have h2 := ih pt
      push_cast
      push_cast at h1 h2
      linarith

theorem imageLossSum_nonneg (d : ImageData) : 0 ≤ imageLossSum d := by
  apply List.sum_nonneg
  intro x hx
  obtain ⟨r, _, rfl⟩ := List.mem_map.mp hx
  exact rowLossSum_nonneg r.1 r.2.1 r.2.2

theorem imageLossSum_le (d : ImageData) :
    imageLossSum d ≤ (imageNumel d : ℚ) * (1 / 2) :=
  sum_rowLossSum_le d.corr (d.valid.zip d.vis)

theorem sample_loss_nonneg (d : ImageData) : 0 ≤ sample_loss d :=
  div_nonneg (imageLossSum_nonneg d) (Nat.cast_nonneg _)

theorem sample_loss_le_half (d : ImageData) : sample_loss d ≤ 1 / 2 := by
  rcases Nat.eq_zero_or_pos (imageNumel d) with h | h
  · rw [sample_loss, h]
    norm_num
  · have hpos : (0 : ℚ) < (imageNumel d : ℚ) := by exact_mod_cast h
    rw [sample_loss, div_le_iff₀ hpos]
    have := imageLossSum_le d
    linarith

theorem get_feat_loss_corr_nonneg (mask : List (List Bool)) (data : List ImageData) :
    0 ≤ get_feat_loss_corr mask data := by
  rw [get_feat_loss_corr]
  split
  · exact le_refl 0
  · apply div_nonneg _ (Nat.cast_nonneg _)
    apply List.sum_nonneg
    intro x hx
    obtain ⟨p, _, rfl⟩ := List.mem_map.mp hx
    split
    · exact sample_loss_nonneg p.2
    · exact le_refl 0

/-- C5: the loss returned by `get_feat_loss_corr` is non-negative; a
per-point/view loss exceeding `0.5` is zeroed out by the threshold mask
rather than raising; every contributing entry is at most `0.5`; and
consequently no per-image mean exceeds `0.5`. -/
theorem get_feat_loss_corr_bounded (mask : List (List Bool)) (data : List ImageData)
    (d : ImageData) (c : ℚ) (va vi : Bool) :
    0 ≤ get_feat_loss_corr mask data ∧
      (1 / 2 < corr_loss c → entryLoss c va vi = 0) ∧
      entryLoss c va vi ≤ 1 / 2 ∧
      0 ≤ sample_loss d ∧ sample_loss d ≤ 1 / 2 :=
  ⟨get_feat_loss_corr_nonneg mask data, entryLoss_gt_half_zero c va vi,
    entryLoss_le_half c va vi, sample_loss_nonneg d, sample_loss_le_half d⟩

theorem get_feat_loss_corr_bounded_witness :
    (1 / 2 : ℚ) < corr_loss 3 ∧ entryLoss 3 true true = 0 :=
  ⟨by norm_num [corr_loss],
    (get_feat_loss_corr_bounded [] [] ⟨[], [], []⟩ 3 true true).2.1
      (by norm_num [corr_loss])⟩

theorem maskedRowVals_sum_eq (cs : List ℚ) (vals vis : List Bool) :
    (maskedRowVals cs vals vis).sum = rowLossSum cs vals vis := by
  unfold maskedRowVals rowLossSum
  generalize cs.zip (vals.zip vis) = l
  induction l with
  | nil => rfl
  | cons p t ih =>
    rw [List.map_cons, List.sum_cons, entryLoss_eq_masked]
    by_cases h : p.2.1 = true ∧ corr_loss p.1 < 1 / 2 ∧ p.2.2 = true
    · rw [List.filterMap_cons_some (by rw [if_pos h]), List.sum_cons,
        if_pos h, ih]
    · rw [List.filterMap_cons_none (by rw [if_neg h]), if_neg h, zero_add, ih]

theorem maskedVals_sum_eq (d : ImageData) : (maskedVals d).sum = imageLossSum d := by
  unfold maskedVals imageLossSum
  rw [List.sum_flatten, List.map_map]
  apply congrArg
  apply List.map_congr_left
  intro r _
  exact maskedRowVals_sum_eq r.1 r.2.1 r.2.2

theorem sample_loss_masked (d : ImageData) :
    sample_loss d = (maskedVals d).sum / (imageNumel d : ℚ) := by
  rw [sample_loss, maskedVals_sum_eq]

/-- C2 (counterexample): on `exImage` (one source view, two points, the
second point failing the valid mask) the per-image loss computed by the
code is `1/8` — the masked sum `1/4` divided by ALL `2` entries — while the
mean over only the mask-true entries is `1/4`. -/
theorem get_feat_loss_corr_mean_denominator_counterexample :
    get_feat_loss_corr [[true, true]] [exImage] = 1 / 8 ∧
      sample_loss_specced exImage = 1 / 4 ∧ (1 / 8 : ℚ) ≠ 1 / 4 := by
  have h34 : corr_loss (3 / 4) = 1 / 4 := by norm_num [corr_loss]
  have h1 : corr_loss 1 = 0 := by norm_num [corr_loss]
  have he1 : entryLoss (3 / 4) true true = 1 / 4 := by
    rw [entryLoss_eq_masked, if_pos ⟨rfl, by rw [h34]; norm_num, rfl⟩, h34]
  have he2 : entryLoss 1 false true = 0 := by
    rw [entryLoss_eq_masked, if_neg (by simp)]
  refine ⟨?_, ?_, by norm_num⟩
  · simp [get_feat_loss_corr, hitNum, sample_loss, imageLossSum, rowLossSum,
      imageNumel, exImage, he1, he2]
    norm_num
  · have hm : maskedRowVals [3 / 4, 1] [true, false] [true, true] = [1 / 4] := by
      unfold maskedRowVals
      rw [show ([(3 / 4 : ℚ), 1].zip ([true, false].zip [true, true])) =
          [(3 / 4, true, true), (1, false, true)] from rfl]
      rw [List.filterMap_cons_some
          (by rw [if_pos ⟨rfl, by rw [h34]; norm_num, rfl⟩]),
        List.filterMap_cons_none (by rw [if_neg (by simp)]),
        List.filterMap_nil, h34]
    simp [sample_loss_specced, maskedVals, exImage, hm]

/-- C2 (amended): the per-image loss equals the sum of the per-point/view
losses over the entries where the valid, under-threshold, and visibility
masks all hold, divided by the TOTAL number of point-view entries (masked
entries are zeroed but still counted in the denominator); an image with no
visible points contributes zero; the aggregate is the unweighted mean of
the per-image losses, one term per image. -/
theorem get_feat_loss_corr_masked_sum_over_all_entries (mask : List (List Bool))
    (data : List ImageData) (h : mask.length = data.length) :
    get_feat_loss_corr mask data =
      ((mask.zip data).map fun p =>
        if 0 < hitNum p.1 then (maskedVals p.2).sum / (imageNumel p.2 : ℚ) else 0).sum
        / (mask.length : ℚ) := by
  rw [get_feat_loss_corr]
  split
  · rename_i h0
    have hall : ∀ row ∈ mask, hitNum row = 0 := by
      intro row hrow
      exact (List.sum_eq_zero_iff.mp h0) (hitNum row) (List.mem_map.mpr ⟨row, hrow, rfl⟩)
    rw [List.sum_eq_zero, zero_div]
    intro x hx
    obtain ⟨p, hp, rfl⟩ := List.mem_map.mp hx
    rw [if_neg]
    intro hpos
    have := hall p.1 (List.of_mem_zip hp).1
    omega
  · have hlen : ((mask.zip data).map fun p =>
        if 0 < hitNum p.1 then sample_loss p.2 else 0).length = mask.length := by
      rw [List.length_map, List.length_zip, h, min_self]
    show ((mask.zip data).map fun p =>
        if 0 < hitNum p.1 then sample_loss p.2 else 0).sum /
      ((((mask.zip data).map fun p =>
        if 0 < hitNum p.1 then sample_loss p.2 else 0).length : ℕ) : ℚ) = _
    rw [hlen]
    congr 1
    apply congrArg List.sum
    apply List.map_congr_left
    intro p _
    split
    · exact sample_loss_masked p.2
    · rfl

theorem get_feat_loss_corr_masked_sum_witness :
    ([[true, true]] : List (List Bool)).length = [exImage].length ∧
      get_feat_loss_corr [[true, true]] [exImage] =
        (([[true, true]].zip [exImage]).map fun p =>
          if 0 < hitNum p.1 then (maskedVals p.2).sum / (imageNumel p.2 : ℚ) else 0).sum
          / (([[true, true]] : List (List Bool)).length : ℚ) :=
  ⟨rfl, get_feat_loss_corr_masked_sum_over_all_entries [[true, true]] [exImage] rfl⟩

theorem runStages_fold {α : Type u} {β : Type v} (app : β → α → α) (l : List β) :
    ∀ (x : α) (ys : List α),
      l.foldl (fun acc b => ((app b acc.1), acc.2 ++ [app b acc.1])) (x, ys)
        = ((runStages app l x).1, ys ++ (runStages app l x).2) := by
  induction l with
  | nil => intro x ys; simp [runStages]
  | cons b t ih =>
    intro x ys
    have h1 := ih (app b x) (ys ++ [app b x])
    have h2 := ih (app b x) [app b x]
    simp only [runStages, List.foldl_cons, List.nil_append] at *
    rw [h1, h2]
    simp [List.append_assoc]

theorem runStages_length {α : Type u} {β : Type v} (app : β → α → α) (l : List β)
    (x : α) : (runStages app l x).2.length = l.length := by
  induction l generalizing x with
  | nil => rfl
  | cons b t ih =>
    show ((b :: t).foldl
        (fun acc c => ((app c acc.1), acc.2 ++ [app c acc.1])) (x, [])).2.length
      = t.length + 1
    rw [List.foldl_cons, runStages_fold]
    simp [ih (app b x)]

theorem runStages_getLastD {α : Type u} {β : Type v} (app : β → α → α) (l : List β)
    (x : α) : (runStages app l x).2.getLastD x = (runStages app l x).1 := by
  induction l generalizing x with
  | nil => rfl
  | cons b t ih =>
    show (((b :: t).foldl
        (fun acc c => ((app c acc.1), acc.2 ++ [app c acc.1])) (x, [])).2.getLastD x)
      = ((b :: t).foldl (fun acc c => ((app c acc.1), acc.2 ++ [app c acc.1])) (x, [])).1
    rw [List.foldl_cons, runStages_fold]
    show ((app b x :: (runStages app t (app b x)).2).getLastD x) = _
    rw [List.getLastD_cons]
    exact ih (app b x)

theorem dropLast_append_getLastD {α : Type u} (l : List α) (d : α) (h : l ≠ []) :
    l.dropLast ++ [l.getLastD d] = l := by
  induction l generalizing d with
  | nil => exact absurd rfl h
  | cons a t ih =>
    cases t with
    | nil => rfl
    | cons b u =>
      rw [List.dropLast_cons₂, List.getLastD_cons, List.cons_append, ih a (by simp)]

theorem pythonTail_append {α : Type u} (n : ℕ) (l1 l2 : List α) (h0 : n ≠ 0)
    (h2 : n ≤ l2.length) : pythonTail n (l1 ++ l2) = pythonTail n l2 := by
  unfold pythonTail
  rw [if_neg h0, if_neg h0]
  have hsum : (l1 ++ l2).length - n = l1.length + (l2.length - n) := by
    rw [List.length_append]; omega
  rw [hsum, ← List.drop_drop, List.drop_left]

/-- C3 (counterexample): an encoder of two stages, one decoder stage, no
head stages, called with `multi_scale = 3`: the code returns the whole
retained list `[enc_final, dec_1]` (two entries), while the claim's window
over all encoder outputs would be `[e_1, e_2, d_1]`. -/
theorem UNet_forward_window_counterexample :
    UNet.forward (fun a b => a + 100 * b) [] [fun x => x + 1, fun x => x + 1]
        [⟨fun x => x * 10, fun x => x + 5, none⟩] [] (0 : ℕ) 3
      = Sum.inr [2, 125] ∧
    pythonTail 3 (unetEncOuts [] [fun x => x + 1, fun x => x + 1] (0 : ℕ) ++
        (unetDecOuts (fun a b => a + 100 * b) [] [fun x => x + 1, fun x => x + 1]
            [⟨fun x => x * 10, fun x => x + 5, none⟩] 0 ++
          unetHeadOuts (fun a b => a + 100 * b) [] [fun x => x + 1, fun x => x + 1]
            [⟨fun x => x * 10, fun x => x + 5, none⟩] [] 0)) = [1, 2, 125] ∧
      ([2, 125] : List ℕ) ≠ [1, 2, 125] :=
  ⟨by decide, by decide, by decide⟩

/-- C3 (amended): with `multi_scale == 1` the forward pass returns only the
final output; otherwise, provided `2 ≤ multi_scale ≤ 1 + #decoder stages +
#head stages` (and at least one more encoder stage than decoder stages),
it returns the last `multi_scale` entries of the concatenation
[encoder outputs ∥ decoder outputs ∥ head outputs] in the order produced.
Beyond that bound the window is truncated to the retained list
`[final encoder output ∥ decoder outputs ∥ head outputs]`, because earlier
encoder outputs are not kept in `dec_out`. -/
theorem UNet_forward_output_window {α : Type u} (cat : α → α → α)
    (bottom encB : List (α → α)) (decB : List (DecBlock α)) (headB : List (α → α))
    (x0 : α) :
    UNet.forward cat bottom encB decB headB x0 1
        = Sum.inl (unetHeadFinal cat bottom encB decB headB x0) ∧
      ∀ n, 2 ≤ n → n ≤ 1 + decB.length + headB.length →
        decB.length + 1 ≤ encB.length →
        UNet.forward cat bottom encB decB headB x0 n
          = Sum.inr (pythonTail n (unetEncOuts bottom encB x0 ++
              (unetDecOuts cat bottom encB decB x0 ++
                unetHeadOuts cat bottom encB decB headB x0))) := by
  constructor
  · simp [UNet.forward]
  · intro n hn2 hnle henc
    have hn1 : n ≠ 1 := by omega
    rw [UNet.forward, if_neg hn1]
    have hlenE : (unetEncOuts bottom encB x0).length = encB.length :=
      runStages_length _ _ _
    have hne : unetEncOuts bottom encB x0 ≠ [] := by
      intro hE
      rw [hE] at hlenE
      simp at hlenE
      omega
    have hlast : (unetEncOuts bottom encB x0).getLastD (unetBottomOut bottom x0)
        = unetEncFinal bottom encB x0 := runStages_getLastD _ _ _
    have hsplit : unetEncOuts bottom encB x0
        = (unetEncOuts bottom encB x0).dropLast ++ [unetEncFinal bottom encB x0] := by
      rw [← hlast]
      exact (dropLast_append_getLastD _ _ hne).symm
    have hlenD : (unetDecOuts cat bottom encB decB x0).length = decB.length := by
      rw [unetDecOuts, unetDecRun, runStages_length, List.enum_length]
    have hlenH : (unetHeadOuts cat bottom encB decB headB x0).length = headB.length :=
      runStages_length _ _ _
    have htail : pythonTail n (unetEncOuts bottom encB x0 ++
        (unetDecOuts cat bottom encB decB x0 ++
          unetHeadOuts cat bottom encB decB headB x0))
        = pythonTail n (unetEncFinal bottom encB x0 ::
            (unetDecOuts cat bottom encB decB x0 ++
              unetHeadOuts cat bottom encB decB headB x0)) := by
      conv =>
        lhs
        rw [hsplit]
      rw [List.append_assoc, List.singleton_append]
      apply pythonTail_append n _ _ (by omega)
      simp only [List.length_cons, List.length_append, hlenD, hlenH]
      omega
    rw [htail]

theorem UNet_forward_output_window_witness :
    UNet.forward (fun a b => a + 100 * b) [] [fun x => x + 1, fun x => x + 1]
        [⟨fun x => x * 10, fun x => x + 5, none⟩] [] (0 : ℕ) 2
      = Sum.inr (pythonTail 2 (unetEncOuts [] [fun x => x + 1, fun x => x + 1] 0 ++
          (unetDecOuts (fun a b => a + 100 * b) [] [fun x => x + 1, fun x => x + 1]
              [⟨fun x => x * 10, fun x => x + 5, none⟩] 0 ++
            unetHeadOuts (fun a b => a + 100 * b) [] [fun x => x + 1, fun x => x + 1]
              [⟨fun x => x * 10, fun x => x + 5, none⟩] [] 0))) :=
  (UNet_forward_output_window (fun a b => a + 100 * b) []
      [fun x => x + 1, fun x => x + 1] [⟨fun x => x * 10, fun x => x + 5, none⟩]
      [] 0).2 2 (by omega) (by simp) (by simp)

theorem div_div_div_same (a b c : ℚ) (hc : c ≠ 0) : a / c / (b / c) = a / b := by
  rcases eq_or_ne b 0 with hb | hb
  · subst hb; simp
  · field_simp

/-- C9: for the hand-computed camera (identity extrinsic, pinhole intrinsic
with focal `f` and principal point `(cx, cy)`) and a world point
`(x, y, z, 1)` with `z ≠ 0`, the composition `idx_cam2img ∘ idx_world2cam`
yields exactly the analytic pinhole projection with the depth denominator
`z` perturbed to `z + eps * (1 + eps + eps^2)` — the accumulation of the
three `1e-9` guards — and nothing else: at zero guard the result is
literally `(f*x/z + cx, f*y/z + cy)`. -/
theorem idx_cam2img_world2cam_pinhole (f cx cy x y z : ℚ) (hz : z ≠ 0) :
    idx_cam2img (idx_world2cam (homoPoint x y z) (pinholeCam f cx cy))
        (pinholeCam f cx cy) 0 = (f * x + cx * z) / (z + epsAcc) ∧
      idx_cam2img (idx_world2cam (homoPoint x y z) (pinholeCam f cx cy))
          (pinholeCam f cx cy) 1 = (f * y + cy * z) / (z + epsAcc) ∧
      (f * x + cx * z) / z = f * x / z + cx ∧
      (f * y + cy * z) / z = f * y / z + cy := by
  have h1 : (1 : ℚ) + eps ≠ 0 := by norm_num [eps]
  have hA : (1 : ℚ) + eps + eps ^ 2 ≠ 0 := by norm_num [eps]
  have hq : mulVec4 idMat4 (homoPoint x y z) = homoPoint x y z := by
    funext i
    fin_cases i <;> simp [mulVec4, idMat4, homoPoint]
  have hp3 : homoPoint x y z 3 = 1 := rfl
  have hw : idx_world2cam (homoPoint x y z) (pinholeCam f cx cy)
      = fun i => homoPoint x y z i / (1 + eps) := by
    funext i
    simp only [idx_world2cam]
    rw [show (pinholeCam f cx cy).extr = idMat4 from rfl, hq, hp3]
  have hden : (1 : ℚ) / (1 + eps) + eps = (1 + eps + eps ^ 2) / (1 + eps) := by
    field_simp
    ring
  have hcancel : ∀ a b : ℚ, a / (1 + eps) / (b / (1 + eps)) = a / b :=
    fun a b => div_div_div_same a b _ h1
  have hden2 : z / (1 + eps + eps ^ 2) + eps
      = (z + eps * (1 + eps + eps ^ 2)) / (1 + eps + eps ^ 2) := by
    field_simp
  have hintr : (pinholeCam f cx cy).intr = pinholeIntr f cx cy := rfl
  have hcast : (Fin.castSucc (2 : Fin 3) : Fin 4) = (2 : Fin 4) := rfl
  have hcast0 : (Fin.castSucc (0 : Fin 3) : Fin 4) = (0 : Fin 4) := rfl
  have hcast1 : (Fin.castSucc (1 : Fin 3) : Fin 4) = (1 : Fin 4) := rfl
  have hx0 : homoPoint x y z 0 = x := rfl
  have hx1 : homoPoint x y z 1 = y := rfl
  have hx2 : homoPoint x y z 2 = z := rfl
  refine ⟨?_, ?_, ?_, ?_⟩
  · rw [hw]
    simp only [idx_cam2img, hp3, hden, hcancel, mulVec3]
    rw [hintr, hcast, hcast0, hcast1, hx0, hx1, hx2,
      show pinholeIntr f cx cy 0 0 = f from rfl,
      show pinholeIntr f cx cy 0 1 = 0 from rfl,
      show pinholeIntr f cx cy 0 2 = cx from rfl,
      show pinholeIntr f cx cy 2 0 = 0 from rfl,
      show pinholeIntr f cx cy 2 1 = 0 from rfl,
      show pinholeIntr f cx cy 2 2 = 1 from rfl]
    rw [show f * (x / (1 + eps + eps ^ 2)) + 0 * (y / (1 + eps + eps ^ 2))
          + cx * (z / (1 + eps + eps ^ 2))
        = (f * x + cx * z) / (1 + eps + eps ^ 2) from by ring,
      show (0 : ℚ) * (x / (1 + eps + eps ^ 2)) + 0 * (y / (1 + eps + eps ^ 2))
          + 1 * (z / (1 + eps + eps ^ 2)) + eps
        = z / (1 + eps + eps ^ 2) + eps from by ring,
      hden2, div_div_div_same _ _ _ hA,
      show epsAcc = eps * (1 + eps + eps ^ 2) from rfl]
  · rw [hw]
    simp only [idx_cam2img, hp3, hden, hcancel, mulVec3]
    rw [hintr, hcast, hcast0, hcast1, hx0, hx1, hx2,
      show pinholeIntr f cx cy 1 0 = 0 from rfl,
      show pinholeIntr f cx cy 1 1 = f from rfl,
      show pinholeIntr f cx cy 1 2 = cy from rfl,
      show pinholeIntr f cx cy 2 0 = 0 from rfl,
      show pinholeIntr f cx cy 2 1 = 0 from rfl,
      show pinholeIntr f cx cy 2 2 = 1 from rfl]
    rw [show (0 : ℚ) * (x / (1 + eps + eps ^ 2)) + f * (y / (1 + eps + eps ^ 2))
          + cy * (z / (1 + eps + eps ^ 2))
        = (f * y + cy * z) / (1 + eps + eps ^ 2) from by ring,
      show (0 : ℚ) * (x / (1 + eps + eps ^ 2)) + 0 * (y / (1 + eps + eps ^ 2))
          + 1 * (z / (1 + eps + eps ^ 2)) + eps
        = z / (1 + eps + eps ^ 2) + eps from by ring,
      hden2, div_div_div_same _ _ _ hA,
      show epsAcc = eps * (1 + eps + eps ^ 2) from rfl]
  · field_simp
  · field_simp

theorem idx_cam2img_world2cam_pinhole_witness :
    (1 : ℚ) ≠ 0 ∧
      idx_cam2img (idx_world2cam (homoPoint 1 2 1) (pinholeCam 2 3 5))
          (pinholeCam 2 3 5) 0 = (2 * 1 + 3 * 1) / (1 + epsAcc) :=
  ⟨by norm_num, (idx_cam2img_world2cam_pinhole 2 3 5 1 2 1 (by norm_num)).1⟩

theorem dictInsert_not_mem (d : List (String × PairVal)) (k : String) (v : PairVal)
    (h : k ∉ dictKeys d) : dictInsert d k v = d ++ [(k, v)] := by
  unfold dictInsert
  rw [if_neg]
  simp only [List.any_eq_true, decide_eq_true_eq, not_exists]
  intro p hpk
  exact h (List.mem_map.mpr ⟨p, hpk.1, hpk.2⟩)

theorem keptWithIndexFrom_cons (k : ℕ) (c : String × List (String × ℚ))
    (rest : List (String × List (String × ℚ))) (mv : Option ℕ) :
    keptWithIndexFrom k (c :: rest) mv =
      (if keep mv c.2.length then
        [(c.1, PairVal.entry ⟨c.1, k, c.2.map Prod.fst, c.2.map Prod.snd⟩)]
      else []) ++ keptWithIndexFrom (k + 1) rest mv := by
  unfold keptWithIndexFrom
  rw [show (c :: rest).enumFrom k = (k, c) :: rest.enumFrom (k + 1) from rfl,
    List.filter_cons]
  split
  · rw [List.map_cons, List.singleton_append]
  · rw [List.nil_append]

theorem keptIds_cons (c : String × List (String × ℚ))
    (rest : List (String × List (String × ℚ))) (mv : Option ℕ) :
    keptIds (c :: rest) mv =
      (if keep mv c.2.length then [c.1] else []) ++ keptIds rest mv := by
  unfold keptIds
  rw [List.filter_cons]
  split
  · rw [List.map_cons, List.singleton_append]
  · rw [List.nil_append]

theorem load_pair_go_spec (mv : Option ℕ) (cams : List (String × List (String × ℚ))) :
    ∀ (k : ℕ) (pairs : List (String × PairVal)) (ids : List String),
      (∀ c ∈ cams, c.1 ∉ dictKeys pairs) → (cams.map Prod.fst).Nodup →
      load_pair_go mv cams k pairs ids
        = (pairs ++ keptWithIndexFrom k cams mv, ids ++ keptIds cams mv) := by
  induction cams with
  | nil =>
    intro k pairs ids _ _
    simp [load_pair_go, keptWithIndexFrom, keptIds]
  | cons c rest ih =>
    intro k pairs ids hfresh hnd
    rw [List.map_cons, List.nodup_cons] at hnd
    obtain ⟨hnotin, hnd⟩ := hnd
    have hne : ∀ c2 ∈ rest, c2.1 ≠ c.1 := by
      intro c2 hc2 he
      exact hnotin (he ▸ List.mem_map.mpr ⟨c2, hc2, rfl⟩)
    by_cases hk : keep mv c.2.length
    · rw [show load_pair_go mv (c :: rest) k pairs ids
          = if keep mv c.2.length then
              load_pair_go mv rest (k + 1)
                (dictInsert pairs c.1
                  (.entry ⟨c.1, (1 + 2 * k) / 2, c.2.map Prod.fst, c.2.map Prod.snd⟩))
                (ids ++ [c.1])
            else load_pair_go mv rest (k + 1) pairs ids from rfl,
        if_pos hk,
        dictInsert_not_mem _ _ _ (hfresh c (List.mem_cons_self c rest))]
      have hidx : (1 + 2 * k) / 2 = k := by omega
      rw [hidx]
      have hfresh2 : ∀ c2 ∈ rest, c2.1 ∉ dictKeys (pairs ++
          [(c.1, PairVal.entry ⟨c.1, k, c.2.map Prod.fst, c.2.map Prod.snd⟩)]) := by
        intro c2 hc2
        rw [dictKeys, List.map_append, List.mem_append]
        rintro (hmem | hmem)
        · exact hfresh c2 (List.mem_cons_of_mem c hc2) hmem
        · simp only [List.map_cons, List.map_nil, List.mem_singleton] at hmem
          exact hne c2 hc2 hmem
      rw [ih (k + 1) _ _ hfresh2 hnd]
      rw [keptWithIndexFrom_cons, keptIds_cons, if_pos hk, if_pos hk]
      simp [List.append_assoc]
    · rw [show load_pair_go mv (c :: rest) k pairs ids
          = if keep mv c.2.length then
              load_pair_go mv rest (k + 1)
                (dictInsert pairs c.1
                  (.entry ⟨c.1, (1 + 2 * k) / 2, c.2.map Prod.fst, c.2.map Prod.snd⟩))
                (ids ++ [c.1])
            else load_pair_go mv rest (k + 1) pairs ids from rfl,
        if_neg hk,
        ih (k + 1) pairs ids (fun c2 hc2 => hfresh c2 (List.mem_cons_of_mem c hc2)) hnd,
        keptWithIndexFrom_cons, keptIds_cons, if_neg hk, if_neg hk]
      simp

theorem dictKeys_keptWithIndexFrom (cams : List (String × List (String × ℚ)))
    (mv : Option ℕ) : ∀ k, dictKeys (keptWithIndexFrom k cams mv) = keptIds cams mv := by
  induction cams with
  | nil => intro k; rfl
  | cons c rest ih =>
    intro k
    have ih2 : List.map Prod.fst (keptWithIndexFrom (k + 1) rest mv) = keptIds rest mv :=
      ih (k + 1)
    rw [keptWithIndexFrom_cons, keptIds_cons, dictKeys, List.map_append, ih2]
    split
    · rfl
    · rfl

theorem keptIds_subset (cams : List (String × List (String × ℚ))) (mv : Option ℕ) :
    ∀ s ∈ keptIds cams mv, s ∈ cams.map Prod.fst := by
  intro s hs
  obtain ⟨c, hc, rfl⟩ := List.mem_map.mp hs
  exact List.mem_map.mpr ⟨c, List.mem_of_mem_filter hc, rfl⟩

/-- C10: for a well-formed pair file (distinct image ids, none equal to the
reserved key), `load_pair` keeps each surviving image keyed by its id with
its `index` field equal to the image's original zero-based position among
all cameras in the file — surviving indices are not renumbered and need not
be contiguous — and additionally stores under the extra key `'id_list'`
exactly the kept ids in file order, alongside the per-image entries. -/
theorem load_pair_original_indices (cams : List (String × List (String × ℚ)))
    (mv : Option ℕ) (hnd : (cams.map Prod.fst).Nodup)
    (hid : "id_list" ∉ cams.map Prod.fst) :
    load_pair cams mv
      = keptWithIndex cams mv ++ [("id_list", PairVal.idList (keptIds cams mv))] := by
  unfold load_pair
  rw [load_pair_go_spec mv cams 0 [] [] (by intro c _; simp [dictKeys]) hnd]
  rw [dictInsert_not_mem _ _ _ (by
    rw [List.nil_append, dictKeys_keptWithIndexFrom]
    intro hmem
    exact hid (keptIds_subset cams mv _ hmem))]
  rw [List.nil_append, List.nil_append]
  rfl

theorem load_pair_original_indices_witness :
    ((([("a", [("b", (1 : ℚ) / 2)]), ("c", [])]).map Prod.fst).Nodup ∧
        "id_list" ∉ ([("a", [("b", (1 : ℚ) / 2)]), ("c", [])]).map Prod.fst) ∧
      load_pair [("a", [("b", (1 : ℚ) / 2)]), ("c", [])] (some 1)
        = keptWithIndex [("a", [("b", (1 : ℚ) / 2)]), ("c", [])] (some 1) ++
            [("id_list",
              PairVal.idList (keptIds [("a", [("b", (1 : ℚ) / 2)]), ("c", [])] (some 1)))] :=
  ⟨⟨by decide, by decide⟩,
    load_pair_original_indices [("a", [("b", (1 : ℚ) / 2)]), ("c", [])] (some 1)
      (by decide) (by decide)⟩

end FatesGS
